import Mathlib

/-!
Verification development for the omg music-generation app.

The repository ships a Vue frontend (`frontend/src`) and README-level
descriptions of a FastAPI backend and model service; the backend queue and
scheduler sources themselves are not in the tree.  Frontend behaviour
(`services/api.js`, `components/QueueView.vue`, `components/MusicForm.vue`,
`views/Home.vue`) is embedded directly from the source.  The queue engine
(Job, Queue, Scheduler operations) is modelled from the specification, as
flagged on each such definition.
-/

namespace OMG

/-- Job status, from the spec's state machine and the status strings the
frontend matches on (`pending | processing | completed | failed | cancelled`). -/
inductive Status where
  | pending
  | processing
  | completed
  | failed
  | cancelled
deriving DecidableEq

/-- Terminal states are `completed`, `failed`, `cancelled`. -/
def Status.isTerminal : Status → Bool
  | .completed => true
  | .failed => true
  | .cancelled => true
  | .pending => false
  | .processing => false

/-- One generation request as built by `handleGenerate` in `views/Home.vue`:
`{prompt, duration, num_versions, lyrics, seed, provider}`.  `lyrics` and
`provider` are `null`able in the JSON; `seed` is always a number there. -/
structure GenRequest where
  prompt : String
  duration : Nat
  num_versions : Nat
  lyrics : Option String
  seed : Nat
  provider : Option String
deriving DecidableEq

/-- Modelled from the spec: the backend Job record is not under `src/`.
A job has an immutable id and request, a status, and a 1-based queue
position among non-terminal jobs (cleared to 0 once terminal, where it is
meaningless). -/
structure Job where
  id : Nat
  status : Status
  position : Nat
  request : GenRequest
deriving DecidableEq

/-- Modelled from the spec: the queue/job store as one owned structure. -/
structure QueueState where
  jobs : List Job
deriving DecidableEq

/-- Modelled from the spec: the error taxonomy surfaced by queue operations. -/
inductive QError where
  | duplicateId
  | notFound
  | busy
  | outOfRange
deriving DecidableEq

/-- Executable model of JavaScript `String.prototype.trim()`: strip leading
and trailing whitespace.  (Lean's own `String.trim` does not reduce inside
the kernel, so the embedding uses this structural equivalent.) -/
def jsTrim (s : String) : String :=
  ⟨(((s.data.dropWhile Char.isWhitespace).reverse).dropWhile Char.isWhitespace).reverse⟩

/-- A job still in the active ordering (not terminal). -/
def isActive (j : Job) : Bool := ! j.status.isTerminal

def activeJobs (q : QueueState) : List Job := q.jobs.filter isActive

def activeCount (q : QueueState) : Nat := (activeJobs q).length

def activePositions (q : QueueState) : List Nat := (activeJobs q).map Job.position

/-- Largest position currently assigned among non-terminal jobs (0 if none). -/
def currentMax (q : QueueState) : Nat := (activePositions q).foldr max 0

def queueIds (q : QueueState) : List Nat := q.jobs.map Job.id

def findJob (q : QueueState) (i : Nat) : Option Job := q.jobs.find? (fun j => j.id == i)

def processingCount (q : QueueState) : Nat :=
  q.jobs.countP (fun j => j.status == .processing)

def anyProcessing (q : QueueState) : Bool := q.jobs.any (fun j => j.status == .processing)

/-- Position renumbering after position `p` leaves the active ordering:
every active position strictly above `p` drops by one. -/
def shiftDown (p x : Nat) : Nat := if p < x then x - 1 else x

/-- Array-move renumbering for `Reorder`: moving the job at `oldP` to `newP`
shifts every active position strictly between them by one to absorb the gap. -/
def shiftFor (oldP newP x : Nat) : Nat :=
  if oldP < newP then (if oldP < x ∧ x ≤ newP then x - 1 else x)
  else (if newP ≤ x ∧ x < oldP then x + 1 else x)

/-- Modelled from the spec: the backend Queue is not under `src/`.
`Enqueue(job)` assigns `position = currentMax+1` and appends; it never fails
except on a duplicate id. -/
def enqueue (q : QueueState) (i : Nat) (r : GenRequest) : Except QError QueueState :=
  if q.jobs.any (fun j => j.id == i) then .error .duplicateId
  else .ok ⟨q.jobs ++ [⟨i, .pending, currentMax q + 1, r⟩]⟩

/-- Modelled from the spec: `Remove(id)` rejects a `processing` job (the
caller must cancel first), deletes a terminal job with no renumbering (it
carries no active position), and otherwise deletes the job and decrements
every active position above it. -/
def remove (q : QueueState) (i : Nat) : Except QError QueueState :=
  match findJob q i with
  | none => .error .notFound
  | some j =>
    if j.status = .processing then .error .busy
    else if j.status.isTerminal then .ok ⟨q.jobs.eraseP (fun x => x.id == i)⟩
    else .ok ⟨(q.jobs.eraseP (fun x => x.id == i)).map (fun x =>
        if isActive x then { x with position := shiftDown j.position x.position } else x)⟩

/-- Modelled from the spec: `Reorder(id, newPosition)` is rejected if the job
is `processing`, unknown, or terminal, or if `newPosition` is outside
`[1, count]`; otherwise the job is removed from its old slot and reinserted
at `newPosition` with classic array-move renumbering in between. -/
def reorder (q : QueueState) (i : Nat) (newPos : Nat) : Except QError QueueState :=
  match findJob q i with
  | none => .error .notFound
  | some j =>
    if j.status = .processing then .error .busy
    else if j.status.isTerminal then .error .notFound
    else if newPos < 1 ∨ activeCount q < newPos then .error .outOfRange
    else .ok ⟨q.jobs.map (fun x =>
      if x.id == i then { x with position := newPos }
      else if isActive x then { x with position := shiftFor j.position newPos x.position }
      else x)⟩

/-- Modelled from the spec: `pending → processing` is triggered only when the
job is the head (`position = 1`) and no other job is `processing`. -/
def startProcessing (q : QueueState) (i : Nat) : Except QError QueueState :=
  match findJob q i with
  | none => .error .notFound
  | some j =>
    if j.status = .pending ∧ j.position = 1 ∧ anyProcessing q = false then
      .ok ⟨q.jobs.map (fun x => if x.id == i then { x with status := .processing } else x)⟩
    else .error .busy

/-- Modelled from the spec: a `processing` job reaches the terminal state `s`
(`completed` on success, `failed` on error); it leaves the active ordering
and the remaining active positions above it are renumbered down. -/
def finishWith (s : Status) (q : QueueState) (i : Nat) : Except QError QueueState :=
  match findJob q i with
  | none => .error .notFound
  | some j =>
    if j.status = .processing then
      .ok ⟨q.jobs.map (fun x =>
        if x.id == i then { x with status := s, position := 0 }
        else if isActive x then { x with position := shiftDown j.position x.position }
        else x)⟩
    else .error .busy

def complete (q : QueueState) (i : Nat) : Except QError QueueState :=
  finishWith .completed q i

def failJob (q : QueueState) (i : Nat) : Except QError QueueState :=
  finishWith .failed q i

/-- Modelled from the spec: `{pending|processing} → cancelled` on an explicit
cancel; the job leaves the active ordering.  Cancel on an already-terminal
job is a no-op success. -/
def cancel (q : QueueState) (i : Nat) : Except QError QueueState :=
  match findJob q i with
  | none => .error .notFound
  | some j =>
    if j.status.isTerminal then .ok q
    else .ok ⟨q.jobs.map (fun x =>
      if x.id == i then { x with status := .cancelled, position := 0 }
      else if isActive x then { x with position := shiftDown j.position x.position }
      else x)⟩

/-- Modelled from the spec: the single `DELETE /api/v1/queue/:id` endpoint —
cancels the job if it is `processing`, is a no-op success on an
already-terminal job, and deletes a `pending` job with renumbering. -/
def cancelOrRemove (q : QueueState) (i : Nat) : Except QError QueueState :=
  match findJob q i with
  | none => .error .notFound
  | some j =>
    if j.status = .processing then
      .ok ⟨q.jobs.map (fun x =>
        if x.id == i then { x with status := .cancelled, position := 0 }
        else if isActive x then { x with position := shiftDown j.position x.position }
        else x)⟩
    else if j.status.isTerminal then .ok q
    else .ok ⟨(q.jobs.eraseP (fun x => x.id == i)).map (fun x =>
        if isActive x then { x with position := shiftDown j.position x.position } else x)⟩

/-- End state of a cancel-or-remove call: on an error the state is unchanged. -/
def corState (q : QueueState) (i : Nat) : QueueState :=
  match cancelOrRemove q i with
  | .ok q2 => q2
  | .error _ => q

/-- Modelled from the spec: the queue listing returned to the frontend.  The
sequence is position-ordered; terminal jobs remain listed (inspectable
history, rendered by `QueueView` with completed/failed/cancelled branches)
until explicitly removed. -/
def listQueue (q : QueueState) : List Job :=
  q.jobs.mergeSort (fun a b => decide (a.position ≤ b.position))

/-- Modelled from the spec: `GetPreset(job id)` returns the job's immutable
original request. -/
def getPreset (j : Job) : GenRequest := j.request

/-- Modelled from the spec: queue states reachable from the empty queue by
the exposed operations and the scheduler's job state transitions. -/
inductive Reachable : QueueState → Prop where
  | init : Reachable ⟨[]⟩
  | enq {q q' : QueueState} {i : Nat} {r : GenRequest} :
      Reachable q → enqueue q i r = .ok q' → Reachable q'
  | rem {q q' : QueueState} {i : Nat} :
      Reachable q → remove q i = .ok q' → Reachable q'
  | reord {q q' : QueueState} {i newPos : Nat} :
      Reachable q → reorder q i newPos = .ok q' → Reachable q'
  | start {q q' : QueueState} {i : Nat} :
      Reachable q → startProcessing q i = .ok q' → Reachable q'
  | compl {q q' : QueueState} {i : Nat} :
      Reachable q → complete q i = .ok q' → Reachable q'
  | failed {q q' : QueueState} {i : Nat} :
      Reachable q → failJob q i = .ok q' → Reachable q'
  | canc {q q' : QueueState} {i : Nat} :
      Reachable q → cancel q i = .ok q' → Reachable q'
  | corm {q q' : QueueState} {i : Nat} :
      Reachable q → cancelOrRemove q i = .ok q' → Reachable q'

/-- Job ids are pairwise distinct. -/
def NodupIds (q : QueueState) : Prop := (queueIds q).Nodup

/-- The contiguity invariant: active positions are a permutation of `1..count`. -/
def PosInv (q : QueueState) : Prop :=
  (activePositions q).Perm (List.range' 1 (activeCount q))

/-- The resource-singleton invariant: at most one job is `processing`. -/
def ProcInv (q : QueueState) : Prop := processingCount q ≤ 1

def WF (q : QueueState) : Prop := NodupIds q ∧ PosInv q ∧ ProcInv q

/-! Frontend embeddings (`frontend/src`). -/

/-- One HTTP request as issued through the axios instance in `services/api.js`. -/
structure ApiRequest where
  method : String
  url : String
deriving DecidableEq

/-- `musicAPI.removeFromQueue(jobId)`: `api.delete('/api/v1/queue/' + jobId)`. -/
def removeFromQueue (jobId : String) : ApiRequest :=
  { method := "DELETE", url := "/api/v1/queue/" ++ jobId }

/-- `musicAPI.cancelGeneration(jobId)`: `api.delete('/api/v1/queue/' + jobId)`. -/
def cancelGeneration (jobId : String) : ApiRequest :=
  { method := "DELETE", url := "/api/v1/queue/" ++ jobId }

/-- A queue item as rendered by `QueueView.vue` (`job_id`, `status`,
`queue_position` are the fields its template and handlers read). -/
structure UIItem where
  job_id : Nat
  status : String
  queue_position : Nat
deriving DecidableEq

/-- The move-up button for an item is rendered and enabled: the template has
`v-if="item.status !== 'processing'"` and
`:disabled="item.queue_position === 1 || moving"`. -/
def moveUpAvailable (moving : Bool) (it : UIItem) : Bool :=
  (it.status != "processing") && !((it.queue_position == 1) || moving)

/-- The move-down button for an item is rendered and enabled: the template has
`v-if="item.status !== 'processing'"` and
`:disabled="item.queue_position === queueItems.length || moving"`. -/
def moveDownAvailable (moving : Bool) (items : List UIItem) (it : UIItem) : Bool :=
  (it.status != "processing") && !((it.queue_position == items.length) || moving)

/-- `moveUp(jobId, currentPosition)`: returns early if `currentPosition <= 1`,
otherwise requests `currentPosition - 1`. -/
def moveUpRequest (currentPosition : Nat) : Option Nat :=
  if currentPosition ≤ 1 then none else some (currentPosition - 1)

/-- `moveDown(jobId, currentPosition)`: returns early if
`currentPosition >= queueItems.length`, otherwise requests
`currentPosition + 1`. -/
def moveDownRequest (itemCount currentPosition : Nat) : Option Nat :=
  if itemCount ≤ currentPosition then none else some (currentPosition + 1)

/-- The form state of `MusicForm.vue` (submission-relevant fields).  An empty
seed input is `none`; an empty provider select is the empty string. -/
structure FormState where
  prompt : String
  lyrics : String
  duration : Nat
  num_versions : Nat
  seed : Option Nat
  provider : String
deriving DecidableEq

/-- The request object built in iteration `i` of the `handleGenerate` loop in
`views/Home.vue`: trimmed prompt, `num_versions: 1`, trimmed-or-null lyrics
and provider, base seed for the first item and a fresh random seed after. -/
def buildRequest (fd : FormState) (baseSeed : Nat) (randomSeed : Nat → Nat) (i : Nat) :
    GenRequest :=
  { prompt := jsTrim fd.prompt
    duration := fd.duration
    num_versions := 1
    lyrics := if jsTrim fd.lyrics = "" then none else some (jsTrim fd.lyrics)
    seed := if i = 0 then baseSeed else randomSeed i
    provider := if jsTrim fd.provider = "" then none else some (jsTrim fd.provider) }

/-- `handleGenerate(formData)` in `views/Home.vue`: submits
`formData.num_versions || 1` separate requests; the base seed is the form's
seed when provided (0 included) and a random seed otherwise. -/
def handleGenerate (fd : FormState) (randomSeed : Nat → Nat) : List GenRequest :=
  let numVersions := match fd.num_versions with | 0 => 1 | n => n
  let baseSeed := match fd.seed with | some s => s | none => randomSeed 0
  (List.range numVersions).map (buildRequest fd baseSeed randomSeed)

/-- `loadPreset(preset)` in `MusicForm.vue`: each form field is set with
JavaScript `||` defaulting, so a falsy field (empty string, `null`, or the
number 0) falls back to the default (`''`, `30`, `1`, `''`, `''`). -/
def loadPreset (preset : GenRequest) : FormState :=
  { prompt := preset.prompt
    lyrics := preset.lyrics.getD ""
    duration := if preset.duration = 0 then 30 else preset.duration
    num_versions := if preset.num_versions = 0 then 1 else preset.num_versions
    seed := match preset.seed with | 0 => none | n => some n
    provider := preset.provider.getD "" }

/-- The lyrics field and its history stack in `MusicForm.vue`. -/
structure LyricsState where
  lyrics : String
  history : List String
deriving DecidableEq

/-- `undoLyrics()` in `MusicForm.vue`: returns unchanged on an empty history;
otherwise pops the most recent history entry into the field, first pushing
the current field onto the history when it is non-blank after trimming. -/
def undoLyrics (st : LyricsState) : LyricsState :=
  match st.history.getLast? with
  | none => st
  | some previous =>
    let h := st.history.dropLast
    { lyrics := previous
      history := if jsTrim st.lyrics = "" then h else h ++ [st.lyrics] }

/-- Positions of the active jobs of a raw job list. -/
def posList (l : List Job) : List Nat := (l.filter isActive).map Job.position

/-- A sample request record, used as concrete test data. -/
def rW : GenRequest :=
  { prompt := "beat", duration := 30, num_versions := 1, lyrics := none, seed := 7,
    provider := none }

/-! Helper lemmas. -/

theorem activePositions_eq_posList (q : QueueState) : activePositions q = posList q.jobs := rfl

theorem foldr_max_perm {l l' : List Nat} (h : l.Perm l') :
    l.foldr max 0 = l'.foldr max 0 := by
  induction h with
  | nil => rfl
  | cons x _ ih => simp [List.foldr_cons, ih]
  | swap x y l => simp [List.foldr_cons, max_left_comm]
  | trans _ _ ih1 ih2 => exact ih1.trans ih2

theorem foldr_max_range' : ∀ (n s : Nat),
    (List.range' s n).foldr max 0 = if n = 0 then 0 else s + n - 1 := by
  intro n
  induction n with
  | zero => intro s; simp
  | succ k ih =>
    intro s
    rw [List.range'_succ, List.foldr_cons, ih (s + 1)]
    by_cases hk : k = 0
    · subst hk; simp
    · rw [if_neg hk, if_neg (Nat.succ_ne_zero k)]
      rw [Nat.max_eq_right (by omega)]
      omega

theorem map_eq_self_of_id {α : Type} {f : α → α} :
    ∀ {l : List α}, (∀ x ∈ l, f x = x) → l.map f = l := by
  intro l
  induction l with
  | nil => intro _; rfl
  | cons x t ih =>
    intro h
    rw [List.map_cons, h x (by simp), ih (fun y hy => h y (by simp [hy]))]

theorem map_pred_range' : ∀ (k s : Nat), 1 ≤ s →
    (List.range' s k).map (fun x => x - 1) = List.range' (s - 1) k := by
  intro k
  induction k with
  | zero => intro s _; rfl
  | succ m ih =>
    intro s hs
    rw [List.range'_succ, List.map_cons, ih (s + 1) (by omega)]
    rw [show s + 1 - 1 = s - 1 + 1 by omega]
    rw [List.range'_succ]

theorem map_succ_range' : ∀ (k s : Nat),
    (List.range' s k).map (fun x => x + 1) = List.range' (s + 1) k := by
  intro k
  induction k with
  | zero => intro s; rfl
  | succ m ih =>
    intro s
    rw [List.range'_succ, List.map_cons, ih (s + 1), List.range'_succ]

theorem range'_split (a b n : Nat) (h : b ≤ n) :
    List.range' a n = List.range' a b ++ List.range' (a + b) (n - b) := by
  have h2 := List.range'_append a b (n - b) 1
  rw [show a + 1 * b = a + b by ring, show n - b + b = n by omega] at h2
  exact h2.symm

theorem erase_range' (n p : Nat) (h1 : 1 ≤ p) (h2 : p ≤ n) :
    (List.range' 1 n).erase p = List.range' 1 (p - 1) ++ List.range' (p + 1) (n - p) := by
  have hsplit := range'_split 1 (p - 1) n (by omega)
  rw [show 1 + (p - 1) = p by omega] at hsplit
  rw [hsplit]
  rw [List.erase_append_right _ (by
    intro hmem
    rw [List.mem_range'_1] at hmem
    omega)]
  rw [show n - (p - 1) = (n - p) + 1 by omega, List.range'_succ, List.erase_cons_head]

theorem erase_shiftDown_range' (n p : Nat) (h1 : 1 ≤ p) (h2 : p ≤ n) :
    ((List.range' 1 n).erase p).map (shiftDown p) = List.range' 1 (n - 1) := by
  rw [erase_range' n p h1 h2, List.map_append]
  have hleft : (List.range' 1 (p - 1)).map (shiftDown p) = List.range' 1 (p - 1) := by
    apply map_eq_self_of_id
    intro x hx
    rw [List.mem_range'_1] at hx
    unfold shiftDown
    rw [if_neg (by omega)]
  have hright : (List.range' (p + 1) (n - p)).map (shiftDown p) = List.range' p (n - p) := by
    have hcg : (List.range' (p + 1) (n - p)).map (shiftDown p)
        = (List.range' (p + 1) (n - p)).map (fun x => x - 1) := by
      apply List.map_congr_left
      intro x hx
      rw [List.mem_range'_1] at hx
      unfold shiftDown
      rw [if_pos (by omega)]
    rw [hcg, map_pred_range' _ _ (by omega), show p + 1 - 1 = p by omega]
  rw [hleft, hright]
  have := range'_split 1 (p - 1) (n - 1) (by omega)
  rw [show 1 + (p - 1) = p by omega, show n - 1 - (p - 1) = n - p by omega] at this
  exact this.symm

theorem cons_ranges_perm (n t : Nat) (h1 : 1 ≤ t) (h2 : t ≤ n) :
    (t :: (List.range' 1 (t - 1) ++ List.range' (t + 1) (n - t))).Perm (List.range' 1 n) := by
  have hfin : List.range' 1 (t - 1) ++ t :: List.range' (t + 1) (n - t) = List.range' 1 n := by
    rw [show t :: List.range' (t + 1) (n - t) = List.range' t ((n - t) + 1) from
      (List.range'_succ t (n - t) 1).symm]
    have := range'_split 1 (t - 1) n (by omega)
    rw [show 1 + (t - 1) = t by omega, show n - (t - 1) = (n - t) + 1 by omega] at this
    exact this.symm
  rw [← hfin]
  exact List.perm_middle.symm

theorem erase_shiftFor_range' (n o t : Nat) (ho1 : 1 ≤ o) (ho2 : o ≤ n)
    (ht1 : 1 ≤ t) (ht2 : t ≤ n) :
    (t :: ((List.range' 1 n).erase o).map (shiftFor o t)).Perm (List.range' 1 n) := by
  rw [erase_range' n o ho1 ho2]
  rcases Nat.lt_trichotomy o t with hlt | heq | hgt
  · have hsp : List.range' (o + 1) (n - o)
        = List.range' (o + 1) (t - o) ++ List.range' (t + 1) (n - t) := by
      have := range'_split (o + 1) (t - o) (n - o) (by omega)
      rwa [show o + 1 + (t - o) = t + 1 by omega, show n - o - (t - o) = n - t by omega] at this
    rw [hsp, List.map_append, List.map_append]
    have e1 : (List.range' 1 (o - 1)).map (shiftFor o t) = List.range' 1 (o - 1) := by
      apply map_eq_self_of_id
      intro x hx
      rw [List.mem_range'_1] at hx
      unfold shiftFor
      rw [if_pos hlt, if_neg (by omega)]
    have e2 : (List.range' (o + 1) (t - o)).map (shiftFor o t) = List.range' o (t - o) := by
      have hcg : (List.range' (o + 1) (t - o)).map (shiftFor o t)
          = (List.range' (o + 1) (t - o)).map (fun x => x - 1) := by
        apply List.map_congr_left
        intro x hx
        rw [List.mem_range'_1] at hx
        unfold shiftFor
        rw [if_pos hlt, if_pos (by omega)]
      rw [hcg, map_pred_range' _ _ (by omega), show o + 1 - 1 = o by omega]
    have e3 : (List.range' (t + 1) (n - t)).map (shiftFor o t) = List.range' (t + 1) (n - t) := by
      apply map_eq_self_of_id
      intro x hx
      rw [List.mem_range'_1] at hx
      unfold shiftFor
      rw [if_pos hlt, if_neg (by omega)]
    rw [e1, e2, e3]
    have hc : List.range' 1 (o - 1) ++ List.range' o (t - o) = List.range' 1 (t - 1) := by
      have := range'_split 1 (o - 1) (t - 1) (by omega)
      rw [show 1 + (o - 1) = o by omega, show t - 1 - (o - 1) = t - o by omega] at this
      exact this.symm
    rw [← List.append_assoc, hc]
    exact cons_ranges_perm n t ht1 ht2
  · subst heq
    have hmap : ((List.range' 1 (o - 1) ++ List.range' (o + 1) (n - o))).map (shiftFor o o)
        = List.range' 1 (o - 1) ++ List.range' (o + 1) (n - o) := by
      apply map_eq_self_of_id
      intro x _
      unfold shiftFor
      rw [if_neg (by omega), if_neg (by omega)]
    rw [hmap]
    exact cons_ranges_perm n o ho1 ho2
  · have hsp : List.range' 1 (o - 1)
        = List.range' 1 (t - 1) ++ List.range' t (o - t) := by
      have := range'_split 1 (t - 1) (o - 1) (by omega)
      rwa [show 1 + (t - 1) = t by omega, show o - 1 - (t - 1) = o - t by omega] at this
    rw [hsp, List.map_append, List.map_append]
    have e1 : (List.range' 1 (t - 1)).map (shiftFor o t) = List.range' 1 (t - 1) := by
      apply map_eq_self_of_id
      intro x hx
      rw [List.mem_range'_1] at hx
      unfold shiftFor
      rw [if_neg (by omega), if_neg (by omega)]
    have e2 : (List.range' t (o - t)).map (shiftFor o t) = List.range' (t + 1) (o - t) := by
      have hcg : (List.range' t (o - t)).map (shiftFor o t)
          = (List.range' t (o - t)).map (fun x => x + 1) := by
        apply List.map_congr_left
        intro x hx
        rw [List.mem_range'_1] at hx
        unfold shiftFor
        rw [if_neg (by omega), if_pos (by omega)]
      rw [hcg, map_succ_range']
    have e3 : (List.range' (o + 1) (n - o)).map (shiftFor o t) = List.range' (o + 1) (n - o) := by
      apply map_eq_self_of_id
      intro x hx
      rw [List.mem_range'_1] at hx
      unfold shiftFor
      rw [if_neg (by omega), if_neg (by omega)]
    rw [e1, e2, e3]
    have hc : List.range' (t + 1) (o - t) ++ List.range' (o + 1) (n - o)
        = List.range' (t + 1) (n - t) := by
      have := range'_split (t + 1) (o - t) (n - t) (by omega)
      rw [show t + 1 + (o - t) = o + 1 by omega, show n - t - (o - t) = n - o by omega] at this
      exact this.symm
    rw [List.append_assoc, hc]
    exact cons_ranges_perm n t ht1 ht2

theorem perm_cons_eraseP {α : Type} {p : α → Bool} {a : α} :
    ∀ {l : List α}, l.find? p = some a → l.Perm (a :: l.eraseP p) := by
  intro l
  induction l with
  | nil => intro h; simp at h
  | cons x t ih =>
    intro h
    by_cases hx : p x = true
    · rw [List.find?_cons_of_pos _ hx] at h
      obtain rfl : x = a := by injection h
      rw [List.eraseP_cons_of_pos hx]
    · rw [List.find?_cons_of_neg _ hx] at h
      rw [List.eraseP_cons_of_neg hx]
      exact ((ih h).cons x).trans (List.Perm.swap a x _)

theorem map_update_perm (i : Nat) (g h : Job → Job) :
    ∀ (l : List Job) (j : Job),
      l.find? (fun x => x.id == i) = some j →
      (l.map Job.id).Nodup →
      (l.map (fun x => if x.id == i then g x else h x)).Perm
        (g j :: (l.eraseP (fun x => x.id == i)).map h) := by
  intro l
  induction l with
  | nil => intro j hf _; simp at hf
  | cons x t ih =>
    intro j hf hnd
    rw [List.map_cons, List.nodup_cons] at hnd
    by_cases hx : (x.id == i) = true
    · rw [@List.find?_cons_of_pos Job (fun y => y.id == i) x t hx] at hf
      obtain rfl : x = j := by injection hf
      rw [@List.eraseP_cons_of_pos Job x t (fun y => y.id == i) hx, List.map_cons, if_pos hx]
      have hxid : x.id = i := by simpa using hx
      have hrest : t.map (fun y => if y.id == i then g y else h y) = t.map h := by
        apply List.map_congr_left
        intro a ha
        have hne : (a.id == i) ≠ true := by
          intro hai
          have hmem : a.id ∈ t.map Job.id := List.mem_map_of_mem _ ha
          rw [show a.id = i by simpa using hai, ← hxid] at hmem
          exact hnd.1 hmem
        rw [if_neg hne]
      rw [hrest]
    · rw [@List.find?_cons_of_neg Job (fun y => y.id == i) x t hx] at hf
      rw [@List.eraseP_cons_of_neg Job x t (fun y => y.id == i) hx, List.map_cons, if_neg hx,
        List.map_cons]
      exact ((ih j hf hnd.2).cons (h x)).trans (List.Perm.swap _ _ _)

theorem find?_eraseP_none (i : Nat) :
    ∀ (l : List Job), (l.map Job.id).Nodup →
      (l.eraseP (fun x => x.id == i)).find? (fun x => x.id == i) = none := by
  intro l
  induction l with
  | nil => intro _; simp
  | cons x t ih =>
    intro hnd
    rw [List.map_cons, List.nodup_cons] at hnd
    by_cases hx : (x.id == i) = true
    · rw [@List.eraseP_cons_of_pos Job x t (fun y => y.id == i) hx]
      rw [List.find?_eq_none]
      intro a ha hai
      have hmem : a.id ∈ t.map Job.id := List.mem_map_of_mem _ ha
      rw [show a.id = i by simpa using hai, ← show x.id = i by simpa using hx] at hmem
      exact hnd.1 hmem
    · rw [@List.eraseP_cons_of_neg Job x t (fun y => y.id == i) hx]
      rw [@List.find?_cons_of_neg Job (fun y => y.id == i) x _ hx]
      exact ih hnd.2

theorem posList_cons (x : Job) (l : List Job) :
    posList (x :: l) = if isActive x = true then x.position :: posList l else posList l := by
  unfold posList
  rw [List.filter_cons]
  by_cases hx : isActive x = true
  · rw [if_pos hx, if_pos hx, List.map_cons]
  · rw [if_neg hx, if_neg hx]

theorem posList_perm {l l' : List Job} (h : l.Perm l') : (posList l).Perm (posList l') :=
  List.Perm.map Job.position (h.filter isActive)

theorem posList_map_shift (φ : Nat → Nat) :
    ∀ l : List Job,
      posList (l.map (fun x =>
          if isActive x = true then { x with position := φ x.position } else x))
        = (posList l).map φ := by
  intro l
  induction l with
  | nil => rfl
  | cons x t ih =>
    rw [List.map_cons]
    by_cases hx : isActive x = true
    · rw [if_pos hx, posList_cons, posList_cons, if_pos hx]
      have hx2 : isActive { x with position := φ x.position } = true := hx
      rw [if_pos hx2, ih, List.map_cons]
    · rw [if_neg hx, posList_cons, posList_cons, if_neg hx, if_neg hx, ih]

theorem posList_eraseP {l : List Job} {j : Job} {i : Nat}
    (hf : l.find? (fun x => x.id == i) = some j) (hj : isActive j = true) :
    (posList (l.eraseP (fun x => x.id == i))).Perm ((posList l).erase j.position) := by
  have h1 : (posList l).Perm (j.position :: posList (l.eraseP (fun x => x.id == i))) := by
    have h2 := posList_perm (perm_cons_eraseP hf)
    rwa [posList_cons, if_pos hj] at h2
  have hmem : j.position ∈ posList l := h1.mem_iff.2 (List.mem_cons_self _ _)
  exact (h1.symm.trans (List.perm_cons_erase hmem)).cons_inv

theorem pos_mem_posList {l : List Job} {j : Job} (hmem : j ∈ l) (hj : isActive j = true) :
    j.position ∈ posList l :=
  List.mem_map_of_mem _ (List.mem_filter.2 ⟨hmem, hj⟩)

theorem posList_bounds {l : List Job} {n p : Nat}
    (h : (posList l).Perm (List.range' 1 n)) (hp : p ∈ posList l) : 1 ≤ p ∧ p ≤ n := by
  have hm := h.mem_iff.1 hp
  rw [List.mem_range'_1] at hm
  omega

theorem ids_map_eq {f : Job → Job} (hf : ∀ x, (f x).id = x.id) (l : List Job) :
    (l.map f).map Job.id = l.map Job.id := by
  rw [List.map_map]
  exact List.map_congr_left (fun a _ => hf a)

theorem countP_proc_map_eq {f : Job → Job} (hf : ∀ x, (f x).status = x.status) (l : List Job) :
    (l.map f).countP (fun j => j.status == Status.processing)
      = l.countP (fun j => j.status == Status.processing) := by
  rw [List.countP_map]
  exact List.countP_congr (fun a _ => by simp [Function.comp, hf a])

theorem posInv_of_perm {q : QueueState} {m : Nat}
    (h : (posList q.jobs).Perm (List.range' 1 m)) : PosInv q := by
  have hlen : activeCount q = m := by
    have h2 := h.length_eq
    rw [List.length_range'] at h2
    simpa [posList, activeCount, activeJobs] using h2
  unfold PosInv
  rw [activePositions_eq_posList, hlen]
  exact h

theorem currentMax_eq {q : QueueState} (h : PosInv q) : currentMax q = activeCount q := by
  unfold currentMax
  rw [foldr_max_perm h, foldr_max_range']
  by_cases hn : activeCount q = 0
  · rw [if_pos hn, hn]
  · rw [if_neg hn]
    omega

theorem isActive_of_not_terminal {j : Job} (h : ¬ j.status.isTerminal = true) :
    isActive j = true := by
  unfold isActive
  rw [Bool.not_eq_true] at h
  rw [h]
  rfl

theorem wf_enqueue {q q' : QueueState} {i : Nat} {r : GenRequest}
    (hwf : WF q) (h : enqueue q i r = .ok q') : WF q' := by
  unfold enqueue at h
  by_cases hdup : (q.jobs.any fun j => j.id == i) = true
  · rw [if_pos hdup] at h
    exact absurd h (by simp)
  · rw [if_neg hdup] at h
    injection h with h2
    subst h2
    have hperm : (posList q.jobs).Perm (List.range' 1 (activeCount q)) := hwf.2.1
    refine ⟨?_, ?_, ?_⟩
    · show ((q.jobs ++ [(⟨i, .pending, currentMax q + 1, r⟩ : Job)]).map Job.id).Nodup
      rw [List.map_append, List.nodup_append]
      refine ⟨hwf.1, by simp, ?_⟩
      intro a ha hai
      obtain ⟨x, hx, rfl⟩ := List.mem_map.1 ha
      have hxi : x.id = i := by simpa using hai
      exact hdup (List.any_eq_true.2 ⟨x, hx, by simp [hxi]⟩)
    · apply posInv_of_perm
      have hsplit : posList (q.jobs ++ [(⟨i, .pending, currentMax q + 1, r⟩ : Job)])
          = posList q.jobs ++ [currentMax q + 1] := by
        unfold posList
        rw [List.filter_append, List.map_append]
        rfl
      have hcat : List.range' 1 (activeCount q) ++ [activeCount q + 1]
          = List.range' 1 (activeCount q + 1) := by
        rw [List.range'_concat]
        congr 2
        omega
      have hfinal : (posList (q.jobs ++ [(⟨i, .pending, currentMax q + 1, r⟩ : Job)])).Perm
          (List.range' 1 (activeCount q + 1)) := by
        rw [hsplit, ← hcat, currentMax_eq hwf.2.1]
        exact List.Perm.append_right _ hperm
      exact hfinal
    · show (List.countP _ _ : Nat) ≤ 1
      rw [List.countP_append]
      have hone : List.countP (fun j => j.status == Status.processing)
          [(⟨i, .pending, currentMax q + 1, r⟩ : Job)] = 0 := rfl
      rw [hone, Nat.add_zero]
      exact hwf.2.2

theorem wf_delete_active {q : QueueState} {i : Nat} {j : Job}
    (hwf : WF q) (hf : findJob q i = some j) (hj : isActive j = true) :
    WF ⟨(q.jobs.eraseP (fun x => x.id == i)).map
        (fun x => if isActive x then { x with position := shiftDown j.position x.position }
          else x)⟩ := by
  have hperm : (posList q.jobs).Perm (List.range' 1 (activeCount q)) := hwf.2.1
  have hp : j.position ∈ posList q.jobs :=
    pos_mem_posList (List.mem_of_find?_eq_some hf) hj
  have hb := posList_bounds hperm hp
  refine ⟨?_, ?_, ?_⟩
  · show (List.map Job.id _).Nodup
    rw [ids_map_eq (fun x => by by_cases hx : isActive x = true <;> simp [hx])]
    exact List.Nodup.sublist (List.Sublist.map Job.id (List.eraseP_sublist _)) hwf.1
  · apply posInv_of_perm
    show (posList _).Perm _
    rw [posList_map_shift]
    have h1 := posList_eraseP (show q.jobs.find? (fun x => x.id == i) = some j from hf) hj
    have h2 := List.Perm.map (shiftDown j.position) (h1.trans (hperm.erase j.position))
    rw [erase_shiftDown_range' _ _ hb.1 hb.2] at h2
    exact h2
  · show (List.countP _ _ : Nat) ≤ 1
    rw [countP_proc_map_eq (fun x => by by_cases hx : isActive x = true <;> simp [hx])]
    exact le_trans (List.Sublist.countP_le _ (List.eraseP_sublist _)) hwf.2.2

theorem wf_delete_terminal {q : QueueState} {i : Nat} {j : Job}
    (hwf : WF q) (hf : findJob q i = some j) (hterm : j.status.isTerminal = true) :
    WF ⟨q.jobs.eraseP (fun x => x.id == i)⟩ := by
  refine ⟨?_, ?_, ?_⟩
  · exact List.Nodup.sublist (List.Sublist.map Job.id (List.eraseP_sublist _)) hwf.1
  · apply posInv_of_perm
    have h1 := posList_perm
      (perm_cons_eraseP (show q.jobs.find? (fun x => x.id == i) = some j from hf))
    rw [posList_cons, if_neg (by simp [isActive, hterm])] at h1
    exact h1.symm.trans hwf.2.1
  · exact le_trans (List.Sublist.countP_le _ (List.eraseP_sublist _)) hwf.2.2

theorem wf_mark_terminal {q : QueueState} {i : Nat} {j : Job} {s : Status}
    (hwf : WF q) (hf : findJob q i = some j) (hj : isActive j = true)
    (hs : s.isTerminal = true) :
    WF ⟨q.jobs.map (fun x =>
      if x.id == i then { x with status := s, position := 0 }
      else if isActive x then { x with position := shiftDown j.position x.position }
      else x)⟩ := by
  have hperm : (posList q.jobs).Perm (List.range' 1 (activeCount q)) := hwf.2.1
  have hp : j.position ∈ posList q.jobs :=
    pos_mem_posList (List.mem_of_find?_eq_some hf) hj
  have hb := posList_bounds hperm hp
  have hup := map_update_perm i (fun x => { x with status := s, position := 0 })
    (fun x => if isActive x then { x with position := shiftDown j.position x.position } else x)
    q.jobs j hf hwf.1
  beta_reduce at hup
  refine ⟨?_, ?_, ?_⟩
  · show (List.map Job.id _).Nodup
    rw [ids_map_eq (fun x => by
      by_cases hix : (x.id == i) = true
      · rw [if_pos hix]
      · rw [if_neg hix]
        by_cases hx : isActive x = true <;> simp [hx])]
    exact hwf.1
  · apply posInv_of_perm
    have h1 := posList_perm hup
    rw [posList_cons, if_neg (by simp [isActive, hs]), posList_map_shift] at h1
    have h2 := posList_eraseP (show q.jobs.find? (fun x => x.id == i) = some j from hf) hj
    have h3 := List.Perm.map (shiftDown j.position) (h2.trans (hperm.erase j.position))
    rw [erase_shiftDown_range' _ _ hb.1 hb.2] at h3
    exact h1.trans h3
  · show List.countP (fun x => x.status == Status.processing)
      (q.jobs.map (fun x =>
        if x.id == i then { x with status := s, position := 0 }
        else if isActive x then { x with position := shiftDown j.position x.position }
        else x)) ≤ 1
    have hcnt := List.Perm.countP_eq (fun x => x.status == Status.processing) hup
    rw [List.countP_cons] at hcnt
    have hsp : (({ j with status := s, position := 0 } : Job).status
        == Status.processing) = false := by
      cases s <;> simp_all [Status.isTerminal]
    rw [hsp] at hcnt
    simp only [Bool.false_eq_true, if_false, Nat.add_zero] at hcnt
    have hR : List.countP (fun x => x.status == Status.processing)
        ((q.jobs.eraseP (fun x => x.id == i)).map
          (fun x => if isActive x then { x with position := shiftDown j.position x.position }
            else x))
        = List.countP (fun x => x.status == Status.processing)
            (q.jobs.eraseP (fun x => x.id == i)) :=
      countP_proc_map_eq (fun x => by by_cases hx : isActive x = true <;> simp [hx]) _
    rw [hR] at hcnt
    have hle := List.Sublist.countP_le (fun x => x.status == Status.processing)
      (@List.eraseP_sublist Job (fun x => x.id == i) q.jobs)
    have hq : (q.jobs.countP fun x => x.status == Status.processing) ≤ 1 := hwf.2.2
    omega

theorem wf_start_update {q : QueueState} {i : Nat} {j : Job}
    (hwf : WF q) (hf : findJob q i = some j) (hpend : j.status = .pending)
    (hnone : anyProcessing q = false) :
    WF ⟨q.jobs.map (fun x =>
      if x.id == i then { x with status := Status.processing } else x)⟩ := by
  have hup := map_update_perm i (fun x => { x with status := Status.processing })
    (fun x => x) q.jobs j hf hwf.1
  beta_reduce at hup
  rw [List.map_id'] at hup
  refine ⟨?_, ?_, ?_⟩
  · show (List.map Job.id _).Nodup
    rw [ids_map_eq (fun x => by by_cases hix : (x.id == i) = true <;> simp [hix])]
    exact hwf.1
  · apply posInv_of_perm
    have h1 := posList_perm hup
    rw [posList_cons, if_pos (show isActive { j with status := Status.processing } = true
      from rfl)] at h1
    have h2 := posList_perm
      (perm_cons_eraseP (show q.jobs.find? (fun x => x.id == i) = some j from hf))
    rw [posList_cons, if_pos (by simp [isActive, hpend, Status.isTerminal])] at h2
    exact (h1.trans h2.symm).trans hwf.2.1
  · show List.countP (fun x => x.status == Status.processing)
      (q.jobs.map (fun x =>
        if x.id == i then { x with status := Status.processing } else x)) ≤ 1
    have hcnt := List.Perm.countP_eq (fun x => x.status == Status.processing) hup
    rw [List.countP_cons] at hcnt
    have hz : (q.jobs.countP fun x => x.status == Status.processing) = 0 := by
      rw [List.countP_eq_zero]
      intro a ha hpa
      have hany : q.jobs.any (fun x => x.status == Status.processing) = true :=
        List.any_eq_true.2 ⟨a, ha, hpa⟩
      have hnone2 : q.jobs.any (fun x => x.status == Status.processing) = false := hnone
      rw [hany] at hnone2
      exact Bool.noConfusion hnone2
    have hite : (if (({ j with status := Status.processing } : Job).status
        == Status.processing) = true then 1 else 0) ≤ 1 := by
      split <;> omega
    have hle := List.Sublist.countP_le (fun x => x.status == Status.processing)
      (@List.eraseP_sublist Job (fun x => x.id == i) q.jobs)
    omega

theorem wf_reorder_update {q : QueueState} {i newPos : Nat} {j : Job}
    (hwf : WF q) (hf : findJob q i = some j) (hj : isActive j = true)
    (h1p : 1 ≤ newPos) (h2p : newPos ≤ activeCount q) :
    WF ⟨q.jobs.map (fun x =>
      if x.id == i then { x with position := newPos }
      else if isActive x then { x with position := shiftFor j.position newPos x.position }
      else x)⟩ := by
  have hperm : (posList q.jobs).Perm (List.range' 1 (activeCount q)) := hwf.2.1
  have hp : j.position ∈ posList q.jobs :=
    pos_mem_posList (List.mem_of_find?_eq_some hf) hj
  have hb := posList_bounds hperm hp
  have hup := map_update_perm i (fun x => { x with position := newPos })
    (fun x => if isActive x then { x with position := shiftFor j.position newPos x.position }
      else x) q.jobs j hf hwf.1
  beta_reduce at hup
  refine ⟨?_, ?_, ?_⟩
  · show (List.map Job.id _).Nodup
    rw [ids_map_eq (fun x => by
      by_cases hix : (x.id == i) = true
      · rw [if_pos hix]
      · rw [if_neg hix]
        by_cases hx : isActive x = true <;> simp [hx])]
    exact hwf.1
  · apply posInv_of_perm
    have h1 := posList_perm hup
    rw [posList_cons, if_pos (show isActive { j with position := newPos } = true from hj),
      posList_map_shift] at h1
    have h2 := posList_eraseP (show q.jobs.find? (fun x => x.id == i) = some j from hf) hj
    have h3 := List.Perm.map (shiftFor j.position newPos) (h2.trans (hperm.erase j.position))
    have h4 := erase_shiftFor_range' (activeCount q) j.position newPos hb.1 hb.2 h1p h2p
    exact h1.trans ((h3.cons newPos).trans h4)
  · show List.countP (fun x => x.status == Status.processing)
      (q.jobs.map (fun x =>
        if x.id == i then { x with position := newPos }
        else if isActive x then { x with position := shiftFor j.position newPos x.position }
        else x)) ≤ 1
    rw [countP_proc_map_eq (fun x => by
      by_cases hix : (x.id == i) = true
      · rw [if_pos hix]
      · rw [if_neg hix]
        by_cases hx : isActive x = true <;> simp [hx])]
    exact hwf.2.2

theorem wf_remove {q q' : QueueState} {i : Nat} (hwf : WF q) (h : remove q i = .ok q') :
    WF q' := by
  unfold remove at h
  cases hfind : findJob q i with
  | none => rw [hfind] at h; exact absurd h (by simp)
  | some j =>
    rw [hfind] at h
    dsimp only [] at h
    by_cases hproc : j.status = .processing
    · rw [if_pos hproc] at h
      exact absurd h (by simp)
    · rw [if_neg hproc] at h
      by_cases hterm : j.status.isTerminal = true
      · rw [if_pos hterm] at h
        injection h with h2
        subst h2
        exact wf_delete_terminal hwf hfind hterm
      · rw [if_neg hterm] at h
        injection h with h2
        subst h2
        exact wf_delete_active hwf hfind (isActive_of_not_terminal hterm)

theorem wf_reorder {q q' : QueueState} {i newPos : Nat} (hwf : WF q)
    (h : reorder q i newPos = .ok q') : WF q' := by
  unfold reorder at h
  cases hfind : findJob q i with
  | none => rw [hfind] at h; exact absurd h (by simp)
  | some j =>
    rw [hfind] at h
    dsimp only [] at h
    by_cases hproc : j.status = .processing
    · rw [if_pos hproc] at h
      exact absurd h (by simp)
    · rw [if_neg hproc] at h
      by_cases hterm : j.status.isTerminal = true
      · rw [if_pos hterm] at h
        exact absurd h (by simp)
      · rw [if_neg hterm] at h
        by_cases hrange : newPos < 1 ∨ activeCount q < newPos
        · rw [if_pos hrange] at h
          exact absurd h (by simp)
        · rw [if_neg hrange] at h
          injection h with h2
          subst h2
          push_neg at hrange
          exact wf_reorder_update hwf hfind (isActive_of_not_terminal hterm)
            (by omega) (by omega)

theorem wf_startProcessing {q q' : QueueState} {i : Nat} (hwf : WF q)
    (h : startProcessing q i = .ok q') : WF q' := by
  unfold startProcessing at h
  cases hfind : findJob q i with
  | none => rw [hfind] at h; exact absurd h (by simp)
  | some j =>
    rw [hfind] at h
    dsimp only [] at h
    by_cases hc : j.status = .pending ∧ j.position = 1 ∧ anyProcessing q = false
    · rw [if_pos hc] at h
      injection h with h2
      subst h2
      exact wf_start_update hwf hfind hc.1 hc.2.2
    · rw [if_neg hc] at h
      exact absurd h (by simp)

theorem wf_finishWith {s : Status} {q q' : QueueState} {i : Nat} (hs : s.isTerminal = true)
    (hwf : WF q) (h : finishWith s q i = .ok q') : WF q' := by
  unfold finishWith at h
  cases hfind : findJob q i with
  | none => rw [hfind] at h; exact absurd h (by simp)
  | some j =>
    rw [hfind] at h
    dsimp only [] at h
    by_cases hproc : j.status = .processing
    · rw [if_pos hproc] at h
      injection h with h2
      subst h2
      exact wf_mark_terminal hwf hfind (by simp [isActive, hproc, Status.isTerminal]) hs
    · rw [if_neg hproc] at h
      exact absurd h (by simp)

theorem wf_cancel {q q' : QueueState} {i : Nat} (hwf : WF q) (h : cancel q i = .ok q') :
    WF q' := by
  unfold cancel at h
  cases hfind : findJob q i with
  | none => rw [hfind] at h; exact absurd h (by simp)
  | some j =>
    rw [hfind] at h
    dsimp only [] at h
    by_cases hterm : j.status.isTerminal = true
    · rw [if_pos hterm] at h
      injection h with h2
      subst h2
      exact hwf
    · rw [if_neg hterm] at h
      injection h with h2
      subst h2
      exact wf_mark_terminal hwf hfind (isActive_of_not_terminal hterm) rfl

theorem wf_cancelOrRemove {q q' : QueueState} {i : Nat} (hwf : WF q)
    (h : cancelOrRemove q i = .ok q') : WF q' := by
  unfold cancelOrRemove at h
  cases hfind : findJob q i with
  | none => rw [hfind] at h; exact absurd h (by simp)
  | some j =>
    rw [hfind] at h
    dsimp only [] at h
    by_cases hproc : j.status = .processing
    · rw [if_pos hproc] at h
      injection h with h2
      subst h2
      exact wf_mark_terminal hwf hfind (by simp [isActive, hproc, Status.isTerminal]) rfl
    · rw [if_neg hproc] at h
      by_cases hterm : j.status.isTerminal = true
      · rw [if_pos hterm] at h
        injection h with h2
        subst h2
        exact hwf
      · rw [if_neg hterm] at h
        injection h with h2
        subst h2
        exact wf_delete_active hwf hfind (isActive_of_not_terminal hterm)

theorem reachable_wf : ∀ {q : QueueState}, Reachable q → WF q := by
  intro q h
  induction h with
  | init => exact ⟨List.nodup_nil, List.Perm.nil, Nat.zero_le 1⟩
  | enq _ hok ih => exact wf_enqueue ih hok
  | rem _ hok ih => exact wf_remove ih hok
  | reord _ hok ih => exact wf_reorder ih hok
  | start _ hok ih => exact wf_startProcessing ih hok
  | compl _ hok ih => exact @wf_finishWith Status.completed _ _ _ rfl ih hok
  | failed _ hok ih => exact @wf_finishWith Status.failed _ _ _ rfl ih hok
  | canc _ hok ih => exact wf_cancel ih hok
  | corm _ hok ih => exact wf_cancelOrRemove ih hok

theorem find?_map_preserving {f : Job → Job} (hf : ∀ x, (f x).id = x.id) (l : List Job)
    (i : Nat) :
    (l.map f).find? (fun x => x.id == i) = (l.find? (fun x => x.id == i)).map f := by
  have hcomp : ((fun x : Job => x.id == i) ∘ f) = (fun x : Job => x.id == i) := by
    funext x
    simp [Function.comp, hf x]
  rw [List.find?_map, hcomp]

theorem cancelOrRemove_terminal {q : QueueState} {i : Nat} {j : Job}
    (hfind : findJob q i = some j) (hterm : j.status.isTerminal = true) :
    cancelOrRemove q i = .ok q := by
  unfold cancelOrRemove
  rw [hfind]
  dsimp only []
  rw [if_neg (by
    intro hp
    rw [hp] at hterm
    exact Bool.noConfusion hterm), if_pos hterm]

theorem findJob_after_mark {q : QueueState} {i : Nat} {j : Job}
    (hfind : findJob q i = some j) :
    findJob ⟨q.jobs.map (fun x =>
      if x.id == i then { x with status := Status.cancelled, position := 0 }
      else if isActive x then { x with position := shiftDown j.position x.position }
      else x)⟩ i
      = some { j with status := Status.cancelled, position := 0 } := by
  unfold findJob
  dsimp only []
  rw [find?_map_preserving (fun x => by
    by_cases hix : (x.id == i) = true
    · rw [if_pos hix]
    · rw [if_neg hix]
      by_cases hx : isActive x = true <;> simp [hx])]
  rw [show q.jobs.find? (fun x => x.id == i) = some j from hfind]
  have hji : (j.id == i) = true :=
    @List.find?_some Job (fun x => x.id == i) j q.jobs hfind
  simp only [Option.map_some']
  rw [if_pos hji]

theorem findJob_after_delete {l : List Job} {i : Nat} {f : Job → Job}
    (hf : ∀ x, (f x).id = x.id) (hnd : (l.map Job.id).Nodup) :
    ((l.eraseP (fun x => x.id == i)).map f).find? (fun x => x.id == i) = none := by
  rw [find?_map_preserving hf, find?_eraseP_none i l hnd]
  rfl

theorem corState_idem (q : QueueState) (i : Nat) (hnd : NodupIds q) :
    corState (corState q i) i = corState q i := by
  cases hfind : findJob q i with
  | none =>
    have h1 : cancelOrRemove q i = .error .notFound := by
      unfold cancelOrRemove
      rw [hfind]
    have hq : corState q i = q := by
      unfold corState
      rw [h1]
    rw [hq]
    exact hq
  | some j =>
    by_cases hproc : j.status = Status.processing
    · have h1 : cancelOrRemove q i = .ok ⟨q.jobs.map (fun x =>
          if x.id == i then { x with status := Status.cancelled, position := 0 }
          else if isActive x then { x with position := shiftDown j.position x.position }
          else x)⟩ := by
        unfold cancelOrRemove
        rw [hfind]
        dsimp only []
        rw [if_pos hproc]
      have hq : corState q i = ⟨q.jobs.map (fun x =>
          if x.id == i then { x with status := Status.cancelled, position := 0 }
          else if isActive x then { x with position := shiftDown j.position x.position }
          else x)⟩ := by
        unfold corState
        rw [h1]
      rw [hq]
      have h2 := cancelOrRemove_terminal (findJob_after_mark hfind) rfl
      unfold corState
      rw [h2]
    · by_cases hterm : j.status.isTerminal = true
      · have h1 := cancelOrRemove_terminal hfind hterm
        have hq : corState q i = q := by
          unfold corState
          rw [h1]
        rw [hq]
        exact hq
      · have h1 : cancelOrRemove q i = .ok ⟨(q.jobs.eraseP (fun x => x.id == i)).map (fun x =>
            if isActive x then { x with position := shiftDown j.position x.position }
            else x)⟩ := by
          unfold cancelOrRemove
          rw [hfind]
          dsimp only []
          rw [if_neg hproc, if_neg hterm]
        have hq : corState q i = ⟨(q.jobs.eraseP (fun x => x.id == i)).map (fun x =>
            if isActive x then { x with position := shiftDown j.position x.position }
            else x)⟩ := by
          unfold corState
          rw [h1]
        rw [hq]
        have hfind2 : findJob ⟨(q.jobs.eraseP (fun x => x.id == i)).map (fun x =>
            if isActive x then { x with position := shiftDown j.position x.position }
            else x)⟩ i = none :=
          findJob_after_delete (fun x => by
            by_cases hx : isActive x = true <;> simp [hx]) hnd
        have h2 : cancelOrRemove ⟨(q.jobs.eraseP (fun x => x.id == i)).map (fun x =>
            if isActive x then { x with position := shiftDown j.position x.position }
            else x)⟩ i = .error .notFound := by
          unfold cancelOrRemove
          rw [hfind2]
        unfold corState
        rw [h2]

/-! Claim theorems. -/

/-- C1: in every reachable queue state the `position` values of the
non-terminal jobs form a contiguous permutation of `1..count` (each of
`1..count` occurs exactly once, with no gaps); the generating steps of
`Reachable` are exactly Enqueue, Remove, Reorder and the job state
transitions, so the invariant is preserved by every operation. -/
theorem posInv_reachable {q : QueueState} (h : Reachable q) :
    (activePositions q).Perm (List.range' 1 (activeCount q)) :=
  (reachable_wf h).2.1

theorem posInv_reachable_witness :
    (activePositions ⟨[⟨1, .pending, 1, rW⟩, ⟨2, .pending, 2, rW⟩]⟩).Perm
      (List.range' 1 (activeCount ⟨[⟨1, .pending, 1, rW⟩, ⟨2, .pending, 2, rW⟩]⟩)) :=
  posInv_reachable
    (@Reachable.enq ⟨[⟨1, .pending, 1, rW⟩]⟩ ⟨[⟨1, .pending, 1, rW⟩, ⟨2, .pending, 2, rW⟩]⟩
      2 rW (@Reachable.enq ⟨[]⟩ ⟨[⟨1, .pending, 1, rW⟩]⟩ 1 rW Reachable.init rfl) rfl)

/-- C2: in every reachable state at most one job has status `processing`
(the count of processing jobs is 0 or 1), and every operation preserves
this resource-singleton invariant. -/
theorem procSingleton_reachable {q : QueueState} (h : Reachable q) :
    processingCount q ≤ 1 :=
  (reachable_wf h).2.2

theorem procSingleton_reachable_witness :
    processingCount ⟨[⟨1, .processing, 1, rW⟩]⟩ ≤ 1 :=
  procSingleton_reachable
    (@Reachable.start ⟨[⟨1, .pending, 1, rW⟩]⟩ ⟨[⟨1, .processing, 1, rW⟩]⟩ 1
      (@Reachable.enq ⟨[]⟩ ⟨[⟨1, .pending, 1, rW⟩]⟩ 1 rW Reachable.init rfl) rfl)

/-- C3: for every job id, invoking cancel-or-remove twice in succession
produces the same end state as invoking it once, and a cancel requested on
an already-terminal job is treated as a no-op success, not an error. -/
theorem cancelOrRemove_idem {q : QueueState} (i : Nat) (hnd : NodupIds q) :
    corState (corState q i) i = corState q i ∧
      (∀ j, findJob q i = some j → j.status.isTerminal = true →
        cancelOrRemove q i = .ok q) :=
  ⟨corState_idem q i hnd, fun _ hfj hterm => cancelOrRemove_terminal hfj hterm⟩

theorem cancelOrRemove_idem_witness :
    (corState (corState ⟨[⟨1, .processing, 1, rW⟩]⟩ 1) 1
        = corState ⟨[⟨1, .processing, 1, rW⟩]⟩ 1) ∧
      cancelOrRemove ⟨[⟨2, .completed, 0, rW⟩]⟩ 2 = .ok ⟨[⟨2, .completed, 0, rW⟩]⟩ :=
  ⟨(cancelOrRemove_idem 1
      (show (queueIds ⟨[⟨1, .processing, 1, rW⟩]⟩).Nodup by decide)).1,
   (cancelOrRemove_idem 2
      (show (queueIds ⟨[⟨2, .completed, 0, rW⟩]⟩).Nodup by decide)).2
     ⟨2, .completed, 0, rW⟩ rfl rfl⟩

/-- C4: the client operations `cancelGeneration` and `removeFromQueue` are
extensionally equal — for every job id both issue the same
`DELETE /api/v1/queue/{id}` request. -/
theorem cancel_remove_same_endpoint (jobId : String) :
    cancelGeneration jobId = removeFromQueue jobId ∧
      (cancelGeneration jobId).method = "DELETE" ∧
      (cancelGeneration jobId).url = "/api/v1/queue/" ++ jobId :=
  ⟨rfl, rfl, rfl⟩

/-- C5: a reorder naming the currently processing job is rejected with a
busy error, and for a queue item rendered with status "processing" neither
the move-up nor the move-down action is available in the QueueView
template, so the UI never emits such a request. -/
theorem processing_reorder_rejected :
    (∀ (q : QueueState) (i newPos : Nat) (j : Job),
      findJob q i = some j → j.status = Status.processing →
        reorder q i newPos = .error .busy) ∧
    (∀ (moving : Bool) (items : List UIItem) (it : UIItem),
      it.status = "processing" →
        moveUpAvailable moving it = false ∧ moveDownAvailable moving items it = false) := by
  constructor
  · intro q i newPos j hfind hproc
    unfold reorder
    rw [hfind]
    dsimp only []
    rw [if_pos hproc]
  · intro moving items it hst
    unfold moveUpAvailable moveDownAvailable
    rw [hst]
    constructor <;> rfl

theorem processing_reorder_rejected_witness :
    reorder ⟨[⟨1, .processing, 1, rW⟩]⟩ 1 1 = .error .busy ∧
      moveUpAvailable false ⟨5, "processing", 2⟩ = false :=
  ⟨processing_reorder_rejected.1 ⟨[⟨1, .processing, 1, rW⟩]⟩ 1 1
      ⟨1, .processing, 1, rW⟩ rfl rfl,
   (processing_reorder_rejected.2 false [] ⟨5, "processing", 2⟩ rfl).1⟩

/-- C6: a move-up click at position `p` issues its reorder request only when
`p > 1`, carrying `new_position = p - 1`; a move-down click at position `p`
issues its request only when `p` is strictly below the number of listed
items, carrying `new_position = p + 1`. -/
theorem move_requests_adjacent :
    (∀ p r, moveUpRequest p = some r → 1 < p ∧ r = p - 1) ∧
    (∀ len p r, moveDownRequest len p = some r → p < len ∧ r = p + 1) := by
  constructor
  · intro p r h
    unfold moveUpRequest at h
    by_cases hp : p ≤ 1
    · rw [if_pos hp] at h
      exact absurd h (by simp)
    · rw [if_neg hp] at h
      injection h with h2
      omega
  · intro len p r h
    unfold moveDownRequest at h
    by_cases hp : len ≤ p
    · rw [if_pos hp] at h
      exact absurd h (by simp)
    · rw [if_neg hp] at h
      injection h with h2
      omega

theorem move_requests_adjacent_witness :
    (1 < 3 ∧ 2 = 3 - 1) ∧ (3 < 5 ∧ 4 = 3 + 1) :=
  ⟨move_requests_adjacent.1 3 2 rfl, move_requests_adjacent.2 5 3 4 rfl⟩

/-- C7 (counterexample): a reachable state whose queue listing contains a
terminal (completed) job — obtained by enqueue, start, complete — so it is
not the case that every element of the ListQueue sequence is an active
(non-terminal) job. -/
theorem listQueue_terminal_listed :
    Reachable ⟨[⟨1, .completed, 0, rW⟩]⟩ ∧
      ∃ j ∈ listQueue ⟨[⟨1, .completed, 0, rW⟩]⟩, j.status.isTerminal = true := by
  constructor
  · exact @Reachable.compl ⟨[⟨1, .processing, 1, rW⟩]⟩ ⟨[⟨1, .completed, 0, rW⟩]⟩ 1
      (@Reachable.start ⟨[⟨1, .pending, 1, rW⟩]⟩ ⟨[⟨1, .processing, 1, rW⟩]⟩ 1
        (@Reachable.enq ⟨[]⟩ ⟨[⟨1, .pending, 1, rW⟩]⟩ 1 rW Reachable.init rfl) rfl) rfl
  · exact ⟨⟨1, .completed, 0, rW⟩, List.mem_mergeSort.2 (by decide), rfl⟩

/-- C7 (amended): the queue listing is ordered by ascending position and
contains exactly the stored jobs — terminal (completed/failed/cancelled)
jobs remain listed until explicitly removed — so active jobs appear in
ascending position order, but not every listed element is active. -/
theorem listQueue_position_ordered (q : QueueState) :
    (listQueue q).Pairwise (fun a b => a.position ≤ b.position) ∧
      ∀ j : Job, j ∈ listQueue q ↔ j ∈ q.jobs := by
  constructor
  · have htr : ∀ a b c : Job, decide (a.position ≤ b.position) = true →
        decide (b.position ≤ c.position) = true →
        decide (a.position ≤ c.position) = true := by
      intro a b c hab hbc
      rw [decide_eq_true_eq] at hab hbc ⊢
      omega
    have hto : ∀ a b : Job,
        (decide (a.position ≤ b.position) || decide (b.position ≤ a.position)) = true := by
      intro a b
      rw [Bool.or_eq_true, decide_eq_true_eq, decide_eq_true_eq]
      omega
    have hs := List.sorted_mergeSort htr hto q.jobs
    unfold listQueue
    refine List.Pairwise.imp ?_ hs
    intro a b hab
    rw [decide_eq_true_eq] at hab
    exact hab
  · intro j
    unfold listQueue
    exact List.mem_mergeSort

/-- C8 (counterexample): the submission path can capture a request with
seed 0 (0 is accepted as a valid seed in `handleGenerate`), and loading the
preset of such a job back into the form yields an empty seed field rather
than 0, because `loadPreset` applies JavaScript falsy-defaulting. -/
theorem preset_seed_zero_not_restored :
    handleGenerate ⟨"beat", "", 30, 1, some 0, ""⟩ (fun _ => 9)
        = [⟨"beat", 30, 1, none, 0, none⟩] ∧
      (loadPreset (getPreset ⟨1, .pending, 1, ⟨"beat", 30, 1, none, 0, none⟩⟩)).seed
        ≠ some ((⟨"beat", 30, 1, none, 0, none⟩ : GenRequest).seed) := by
  constructor
  · rfl
  · decide

/-- C8 (amended): for a job whose request was captured by the submission
path (hence `num_versions = 1`) from a form with nonzero duration and whose
captured seed is nonzero, GetPreset followed by loadPreset restores exactly
the request fields, a `null` lyrics/provider loading as the empty form
value; a request with seed 0 — reachable, since 0 is a valid seed — is
instead loaded with an empty seed field. -/
theorem preset_roundtrip_restores_request (j : Job) (fd : FormState) (baseSeed : Nat)
    (g : Nat → Nat) (i : Nat)
    (hreq : j.request = buildRequest fd baseSeed g i)
    (hdur : fd.duration ≠ 0)
    (hseed : j.request.seed ≠ 0) :
    loadPreset (getPreset j) =
      { prompt := j.request.prompt
        lyrics := j.request.lyrics.getD ""
        duration := j.request.duration
        num_versions := j.request.num_versions
        seed := some j.request.seed
        provider := j.request.provider.getD "" } := by
  have hd : j.request.duration ≠ 0 := by
    rw [hreq]
    exact hdur
  have hn : j.request.num_versions ≠ 0 := by
    rw [hreq]
    exact one_ne_zero
  unfold loadPreset getPreset
  rw [if_neg hd, if_neg hn]
  cases hsv : j.request.seed with
  | zero => exact absurd hsv hseed
  | succ n => rfl

theorem preset_roundtrip_witness :
    loadPreset (getPreset ⟨1, .pending, 1, ⟨"beat", 30, 1, none, 5, none⟩⟩)
      = ⟨"beat", "", 30, 1, some 5, ""⟩ := by
  have h := preset_roundtrip_restores_request
    ⟨1, .pending, 1, ⟨"beat", 30, 1, none, 5, none⟩⟩
    ⟨"beat", "", 30, 1, some 5, ""⟩ 5 (fun _ => 9) 0 (by decide) (by decide) (by decide)
  exact h

/-- C9: for every form submission with `num_versions = N` (1 ≤ N ≤ 5),
`handleGenerate` issues exactly N separate generation requests, and every
one of them carries `num_versions = 1`. -/
theorem handleGenerate_one_version_each (fd : FormState) (g : Nat → Nat) (N : Nat)
    (h1 : 1 ≤ N) (h5 : N ≤ 5) (hN : fd.num_versions = N) :
    (handleGenerate fd g).length = N ∧
      ∀ r ∈ handleGenerate fd g, r.num_versions = 1 := by
  subst hN
  unfold handleGenerate
  cases hv : fd.num_versions with
  | zero => omega
  | succ m =>
    dsimp only []
    constructor
    · rw [List.length_map, List.length_range]
      rfl
    · intro r hr
      rw [List.mem_map] at hr
      obtain ⟨idx, _, rfl⟩ := hr
      rfl

theorem handleGenerate_one_version_witness :
    (handleGenerate ⟨"beat", "", 30, 3, some 5, ""⟩ (fun k => k)).length = 3 ∧
      ∀ r ∈ handleGenerate ⟨"beat", "", 30, 3, some 5, ""⟩ (fun k => k),
        r.num_versions = 1 :=
  handleGenerate_one_version_each ⟨"beat", "", 30, 3, some 5, ""⟩ (fun k => k) 3
    (by decide) (by decide) rfl

/-- C10: whenever the lyrics field is non-blank after trimming and the
history is non-empty, `undoLyrics` swaps the field with the last history
entry and leaves the rest of the history unchanged; when the restored entry
is itself non-blank (the stated conditions hold again), a second
`undoLyrics` restores both the field and the history — undo is an
involution, not a multi-level undo. -/
theorem undoLyrics_swap_involution (l x : String) (h : List String)
    (hl : jsTrim l ≠ "") :
    undoLyrics ⟨l, h ++ [x]⟩ = ⟨x, h ++ [l]⟩ ∧
      (jsTrim x ≠ "" → undoLyrics (undoLyrics ⟨l, h ++ [x]⟩) = ⟨l, h ++ [x]⟩) := by
  have hswap : ∀ (a b : String) (t : List String), jsTrim a ≠ "" →
      undoLyrics ⟨a, t ++ [b]⟩ = ⟨b, t ++ [a]⟩ := by
    intro a b t ha
    unfold undoLyrics
    rw [List.getLast?_concat]
    dsimp only []
    rw [List.dropLast_concat, if_neg ha]
  refine ⟨hswap l x h hl, fun hx => ?_⟩
  rw [hswap l x h hl, hswap x l h hx]

theorem undoLyrics_swap_involution_witness :
    undoLyrics ⟨"la", [] ++ ["da"]⟩ = ⟨"da", [] ++ ["la"]⟩ ∧
      (jsTrim "da" ≠ "" →
        undoLyrics (undoLyrics ⟨"la", [] ++ ["da"]⟩) = ⟨"la", [] ++ ["da"]⟩) :=
  undoLyrics_swap_involution "la" "da" [] (by decide)

end OMG
